import Mathlib

/-!
Verification of the task-graph scheduler in
`crates/opsml_interfaces/src/genai/workflow.rs` against its specification.

The Rust code is shallowly embedded: `HashMap<String, _>` becomes an
association list (`List (String × _)`), `HashSet<String>` becomes a
`List String` used only through membership, and the recursive
`topological_sort` is given an explicit fuel parameter (returning `none`
on fuel exhaustion) so that its termination is a provable statement
rather than an assumption.  The concurrent round of `execute_workflow`
is modelled as a sequential left fold: within one round every spawned
unit writes only its own task id and reads only results of dependencies
(which are `Completed` before the round starts and are never written
during it), so all interleavings produce the same end-of-round state.
-/

namespace Opsml

/-- Task status, from `task.rs` (the enum's four variants are the ones
used throughout `workflow.rs` and §4.2 of the spec). -/
inductive TaskStatus where
  | Pending
  | Running
  | Completed
  | Failed
deriving DecidableEq

/-- Modelled from the spec: `ChatResponse` (in `genai/types.rs`, not part of
the sources here) is the opaque result a task produces; only its rendering
via `to_message` is observed by the scheduler. -/
structure ChatResponse where
  content : String
deriving DecidableEq

/-- Message role, from `potato_head::prompt::types::Role`; only
`Assistant` is used by the scheduler. -/
inductive Role where
  | Assistant
  | User
deriving DecidableEq

/-- A conversation message, from `potato_head`. -/
structure Message where
  role : Role
  content : String
deriving DecidableEq

/-- Modelled from the spec: `ChatResponse::to_message(role)` renders a task
result as conversation turns for downstream context (spec §4.3 step 4);
`types.rs` is not among the sources, so the rendering is kept abstract as
a single message carrying the response content.  In `workflow.rs` the
call site is `result.to_message(Role::Assistant).unwrap_or_default()`. -/
def ChatResponse.to_message (r : ChatResponse) (role : Role) : List Message :=
  [{ role := role, content := r.content }]

/-- A task, from `task.rs` (not among the sources); fields are the ones
`workflow.rs` reads: `id`, `agent_id`, `dependencies`, `status`,
`result`, plus the opaque payload (`prompt`). -/
structure Task where
  id : String
  agent_id : String
  dependencies : List String
  prompt : String
  status : TaskStatus
  result : Option ChatResponse
deriving DecidableEq

/-- Lookup in the association-list model of `HashMap<String, α>`. -/
def hmFind {α : Type} : List (String × α) → String → Option α
  | [], _ => none
  | (k, v) :: rest, key => if k = key then some v else hmFind rest key

/-- `HashMap::insert`: replace the binding of `key` if present, else add it. -/
def hmInsert {α : Type} : List (String × α) → String → α → List (String × α)
  | [], key, v => [(key, v)]
  | (k, w) :: rest, key, v =>
    if k = key then (key, v) :: rest else (k, w) :: hmInsert rest key v

/-- `HashMap::remove`: drop the binding of `key` if present. -/
def hmErase {α : Type} : List (String × α) → String → List (String × α)
  | [], _ => []
  | (k, w) :: rest, key => if k = key then rest else (k, w) :: hmErase rest key

/-- `HashMap::get_mut` followed by a field update: apply `f` to the value
bound to `key`, a no-op when `key` is absent. -/
def hmModify {α : Type} : List (String × α) → String → (α → α) → List (String × α)
  | [], _, _ => []
  | (k, w) :: rest, key, f =>
    if k = key then (k, f w) :: rest else (k, w) :: hmModify rest key f

/-- `HashMap::keys`. -/
def hmKeys {α : Type} (m : List (String × α)) : List String := m.map Prod.fst

/-- `HashMap::values`. -/
def hmValues {α : Type} (m : List (String × α)) : List α := m.map Prod.snd

/-- `TaskList` (workflow.rs lines 17-21). -/
structure TaskList where
  tasks : List (String × Task)
  execution_order : List String
deriving DecidableEq

/-- `TaskList::new`. -/
def TaskList.mkNew : TaskList := { tasks := [], execution_order := [] }

/-- `TaskList::get_task`. -/
def TaskList.get_task (tl : TaskList) (task_id : String) : Option Task :=
  hmFind tl.tasks task_id

/-- `TaskList::is_complete`: every task is `Completed` or `Failed`. -/
def TaskList.is_complete (tl : TaskList) : Bool :=
  (hmValues tl.tasks).all fun task =>
    task.status = TaskStatus.Completed || task.status = TaskStatus.Failed

/-- `TaskList::pending_count`. -/
def TaskList.pending_count (tl : TaskList) : Nat :=
  ((hmValues tl.tasks).filter fun task => task.status = TaskStatus.Pending).length

/-- `TaskList::update_task_status`: unconditionally overwrite status and
result of the task bound to `task_id`; no-op when the id is unknown. -/
def TaskList.update_task_status (tl : TaskList) (task_id : String)
    (status : TaskStatus) (result : Option ChatResponse) : TaskList :=
  { tl with
    tasks := hmModify tl.tasks task_id
      fun task => { task with status := status, result := result } }

/-- Dependencies consulted by `topological_sort`: the task's dependency
list when the id is in the map, nothing otherwise (workflow.rs 86-90). -/
def TaskList.deps_of (tl : TaskList) (task_id : String) : List String :=
  match tl.get_task task_id with
  | some task => task.dependencies
  | none => []

/-- The `for dep_id in &task.dependencies` loop inside
`topological_sort` (workflow.rs 87-89), threading `visited` and `order`;
`visit` is the recursive call at the remaining fuel. -/
def topo_sort_deps
    (visit : String → List String → List String → List String →
      Option (List String × List String)) :
    List String → List String → List String → List String →
      Option (List String × List String)
  | [], _, visited, order => some (visited, order)
  | dep :: rest, temp_visited, visited, order =>
    match visit dep temp_visited visited order with
    | none => none
    | some (v, o) => topo_sort_deps visit rest temp_visited v o

/-- `TaskList::topological_sort` (workflow.rs 69-95) with explicit fuel.
`temp_visited` is threaded downward only: the Rust code removes
`task_id` from the set before returning, so each call leaves the set as
it found it and the caller's view is modelled by passing its own value.
Returns the updated `(visited, order)` pair, or `none` when fuel runs
out (the termination theorem shows this never happens at the fuel used
by `rebuild_execution_order`). -/
def TaskList.topological_sort (tl : TaskList) :
    Nat → String → List String → List String → List String →
      Option (List String × List String)
  | 0, _, _, _, _ => none
  | f + 1, task_id, temp_visited, visited, order =>
    if task_id ∈ temp_visited then some (visited, order)
    else if task_id ∈ visited then some (visited, order)
    else
      match topo_sort_deps (tl.topological_sort f) (tl.deps_of task_id)
          (task_id :: temp_visited) visited order with
      | none => none
      | some (v, o) => some (task_id :: v, o ++ [task_id])

/-- Fuel sufficient for any depth-first chain: every recursion step after
the first enters through a task present in the map and not yet in
`temp_visited`, so chains are longer than `tasks.length + 1` never. -/
def TaskList.rebuild_fuel (tl : TaskList) : Nat := tl.tasks.length + 1

/-- The `for task_id in self.tasks.keys()` loop of
`rebuild_execution_order` (workflow.rs 102-106). -/
def TaskList.rebuild_order_aux (tl : TaskList) :
    List String → List String → List String → Option (List String × List String)
  | [], visited, order => some (visited, order)
  | k :: ks, visited, order =>
    if k ∈ visited then tl.rebuild_order_aux ks visited order
    else
      match tl.topological_sort tl.rebuild_fuel k [] visited order with
      | none => none
      | some (v, o) => tl.rebuild_order_aux ks v o

/-- `TaskList::rebuild_execution_order` (workflow.rs 97-109).  The `none`
branch is unreachable (see the termination theorem): it models fuel
exhaustion, which the Rust recursion does not have. -/
def TaskList.rebuild_execution_order (tl : TaskList) : TaskList :=
  match tl.rebuild_order_aux (hmKeys tl.tasks) [] [] with
  | some (_, order) => { tl with execution_order := order }
  | none => { tl with execution_order := [] }

/-- `TaskList::add_task`: insert by `task.id`, then rebuild the order. -/
def TaskList.add_task (tl : TaskList) (task : Task) : TaskList :=
  TaskList.rebuild_execution_order
    { tl with tasks := hmInsert tl.tasks task.id task }

/-- `TaskList::remove_task` (workflow.rs 46-48): removes the binding and
nothing else — in particular it does not rebuild `execution_order`. -/
def TaskList.remove_task (tl : TaskList) (task_id : String) : TaskList :=
  { tl with tasks := hmErase tl.tasks task_id }

/-- The dependency check inside `get_ready_tasks` (workflow.rs 120-125):
`self.tasks.get(dep_id).map(|dep| dep.status == Completed).unwrap_or(false)`. -/
def TaskList.dep_completed (tl : TaskList) (dep_id : String) : Bool :=
  match tl.get_task dep_id with
  | some dep => dep.status = TaskStatus.Completed
  | none => false

/-- `TaskList::get_ready_tasks` (workflow.rs 115-129). -/
def TaskList.get_ready_tasks (tl : TaskList) : List Task :=
  (hmValues tl.tasks).filter fun task =>
    task.status = TaskStatus.Pending &&
      task.dependencies.all tl.dep_completed

/-- `AgentResponse` (potato_head `types.rs`): the scheduler only reads its
`response` field (workflow.rs line 258). -/
structure AgentResponse where
  response : ChatResponse

/-- Observable outcome of one `agent.execute_async_task(...)` call inside
the spawned unit: a successful response, an error return (workflow.rs
261-266), or a panic that unwinds the spawned task before any write-back
(surfacing only as the logged `JoinError` at workflow.rs 276-277). -/
inductive ExecOutcome where
  | ok (resp : AgentResponse)
  | err
  | panicked

/-- Model of `Agent` (agent.rs): for the scheduler, an agent is its id
plus the observable outcome of `execute_async_task` given the task and
the dependency context; the provider client behind it is an external
collaborator (spec §6). -/
structure Agent where
  id : String
  execute : Task → List (String × List Message) → ExecOutcome

/-- `Workflow` (workflow.rs 132-139). -/
structure Workflow where
  id : String
  name : String
  tasks : TaskList
  agents : List (String × Agent)

/-- `Workflow::is_complete`. -/
def Workflow.is_complete (wf : Workflow) : Bool := wf.tasks.is_complete

/-- `Workflow::pending_count`. -/
def Workflow.pending_count (wf : Workflow) : Nat := wf.tasks.pending_count

/-- Context assembly for one dispatched task (workflow.rs 228-242): one
entry per dependency that is present in the map and carries a result. -/
def build_context (wf : Workflow) (task : Task) : List (String × List Message) :=
  task.dependencies.foldl
    (fun ctx dep_id =>
      match wf.tasks.get_task dep_id with
      | some dep =>
        match dep.result with
        | some result => hmInsert ctx dep_id (result.to_message Role.Assistant)
        | none => ctx
      | none => ctx)
    []

/-- One ready task's treatment in a round (workflow.rs 216-272): mark it
`Running`, build its context, look up its agent, and apply the spawned
unit's write-back — `Completed` with the response on `Ok`, `Failed` with
no result on `Err`, and no write at all when the agent is missing (the
closure body is skipped) or the call panics (the closure unwinds). -/
def dispatch_task (wf : Workflow) (task : Task) : Workflow :=
  let wf1 : Workflow :=
    { wf with
      tasks := wf.tasks.update_task_status task.id TaskStatus.Running none }
  let context := build_context wf1 task
  match hmFind wf1.agents task.agent_id with
  | none => wf1
  | some agent =>
    match agent.execute task context with
    | ExecOutcome.ok resp =>
      { wf1 with
        tasks := wf1.tasks.update_task_status task.id TaskStatus.Completed
          (some resp.response) }
    | ExecOutcome.err =>
      { wf1 with
        tasks := wf1.tasks.update_task_status task.id TaskStatus.Failed none }
    | ExecOutcome.panicked => wf1

/-- One round of the loop (workflow.rs 213-279): dispatch every ready
task, then join.  Sequentialized as a left fold; see the module header
for why every interleaving of the spawned writes yields this state. -/
def process_round (wf : Workflow) (ready : List Task) : Workflow :=
  ready.foldl dispatch_task wf

/-- The value `execute_workflow` hands back to its caller.  The Rust
signature is `Result<(), AgentError>`; the `err` variant exists in the
model so that "which variant is ever returned" is a statement, not a
typing accident. -/
inductive RunReturn where
  | ok
  | err
deriving DecidableEq

/-- `execute_workflow` (workflow.rs 186-283) with explicit fuel counting
loop iterations; `none` models a run that has not terminated within
`fuel` iterations.  The deadlock `break` (workflow.rs 206-209) falls
through to the same `Ok(())` at line 282 as normal completion. -/
def execute_workflow : Nat → Workflow → Option (Workflow × RunReturn)
  | 0, _ => none
  | fuel + 1, wf =>
    if wf.is_complete then some (wf, RunReturn.ok)
    else if wf.tasks.get_ready_tasks.isEmpty then
      if wf.pending_count > 0 then some (wf, RunReturn.ok)
      else execute_workflow fuel wf
    else execute_workflow fuel (process_round wf wf.tasks.get_ready_tasks)

/-- The status/result pair a round's dispatch writes back for a task,
read off `dispatch_task` branch by branch: no registered agent — no
write, the task keeps the `Running` mark; `Ok` — `Completed` plus the
produced response; `Err` — `Failed`, no result; panic — no write, the
task keeps the `Running` mark. -/
def dispatch_outcome (wf : Workflow) (task : Task) :
    TaskStatus × Option ChatResponse :=
  let wf1 : Workflow :=
    { wf with
      tasks := wf.tasks.update_task_status task.id TaskStatus.Running none }
  match hmFind wf1.agents task.agent_id with
  | none => (TaskStatus.Running, none)
  | some agent =>
    match agent.execute task (build_context wf1 task) with
    | ExecOutcome.ok resp => (TaskStatus.Completed, some resp.response)
    | ExecOutcome.err => (TaskStatus.Failed, none)
    | ExecOutcome.panicked => (TaskStatus.Running, none)

/-- The context value a dependency id contributes during context
assembly: the rendering of its result when the id is in the map and a
result is present, nothing otherwise (workflow.rs 231-239). -/
def ctx_val (wf : Workflow) (k : String) : Option (List Message) :=
  match wf.tasks.get_task k with
  | some d =>
    match d.result with
    | some r => some (r.to_message Role.Assistant)
    | none => none
  | none => none

/-- Well-formedness of the map as the Rust API maintains it: keys are
unique (a `HashMap` property) and every task is keyed by its own id
(`add_task` inserts at `task.id` and no update changes `id`). -/
def TaskList.WF (tl : TaskList) : Prop :=
  (hmKeys tl.tasks).Nodup ∧ ∀ p ∈ tl.tasks, (Prod.snd p).id = Prod.fst p

instance (tl : TaskList) : Decidable tl.WF := by
  unfold TaskList.WF; infer_instance

/-! ### Concrete inputs used by counterexamples and witnesses -/

/-- A fresh task as `Task::new` produces it: `Pending`, no result (spec §3). -/
def mkTask (id agent_id : String) (deps : List String) : Task :=
  { id := id, agent_id := agent_id, dependencies := deps, prompt := "",
    status := TaskStatus.Pending, result := none }

/-- An agent whose provider call always succeeds with the given text. -/
def okAgent (text : String) : Agent :=
  { id := "agent-ok", execute := fun _ _ => ExecOutcome.ok ⟨⟨text⟩⟩ }

/-- An agent whose provider call always returns an error. -/
def errAgent : Agent :=
  { id := "agent-err", execute := fun _ _ => ExecOutcome.err }

/-- An agent whose call panics inside the spawned execution unit. -/
def faultyAgent : Agent :=
  { id := "agent-faulty", execute := fun _ _ => ExecOutcome.panicked }

/-- A `Completed` task carrying a result. -/
def doneTaskA : Task :=
  { id := "a", agent_id := "ag", dependencies := [], prompt := "",
    status := TaskStatus.Completed, result := some { content := "r" } }

/-- A task list holding one `Completed` task carrying a result. -/
def tlDone : TaskList :=
  { tasks := [("a", doneTaskA)], execution_order := ["a"] }

/-- Two independent tasks added through the API. -/
def tl6 : TaskList :=
  (TaskList.mkNew.add_task (mkTask "a" "ag" [])).add_task (mkTask "b" "ag" [])

/-- One task bound to a registered, succeeding agent. -/
def wfGood : Workflow :=
  { id := "w", name := "w",
    tasks := TaskList.mkNew.add_task (mkTask "g" "ag" []),
    agents := [("ag", okAgent "r")] }

/-- A two-task dependency cycle with no other tasks (spec §8, deadlock
detection scenario). -/
def wfCyc : Workflow :=
  { id := "c", name := "c",
    tasks := (TaskList.mkNew.add_task (mkTask "a" "ag" ["b"])).add_task
      (mkTask "b" "ag" ["a"]),
    agents := [] }

/-- Task `a` bound to the registered agent `ag`; independent task `b`
bound to the unregistered name `ghost` (spec §8, executor-missing
scenario). -/
def wfMissing : Workflow :=
  { id := "m", name := "m",
    tasks := (TaskList.mkNew.add_task (mkTask "a" "ag" [])).add_task
      (mkTask "b" "ghost" []),
    agents := [("ag", okAgent "r")] }

/-- One task whose agent's call panics inside the spawned unit. -/
def wfPanicking : Workflow :=
  { id := "p", name := "p",
    tasks := TaskList.mkNew.add_task (mkTask "p" "pa" []),
    agents := [("pa", faultyAgent)] }

/-- A `Completed` task whose result is `R` (context-assembly scenario). -/
def taskAR : Task :=
  { id := "a", agent_id := "ag", dependencies := [], prompt := "",
    status := TaskStatus.Completed, result := some { content := "R" } }

/-- The task `b` of `wfAB`, depending only on `a`. -/
def taskB : Task := mkTask "b" "ag" ["a"]

/-- Completed task `a` with result `R`, and `b` depending only on `a`
(spec §8, context-assembly scenario). -/
def wfAB : Workflow :=
  { id := "ab", name := "ab",
    tasks := { tasks := [("a", taskAR), ("b", taskB)],
               execution_order := ["a", "b"] },
    agents := [("ag", okAgent "r")] }

/-- Number of map keys not yet on the depth-first path: the measure that
bounds the recursion depth of `topological_sort`. -/
def keys_not_in (tl : TaskList) (temp : List String) : Nat :=
  ((hmKeys tl.tasks).filter fun k => decide (k ∉ temp)).length

/-- The invariant tying `visited` to `order` inside the depth-first
traversal: `order` lists exactly the visited ids, each once. -/
def topo_inv (v o : List String) : Prop :=
  ∀ x : String, o.count x = if x ∈ v then 1 else 0

/-! ### Association-list lemmas -/

theorem hmFind_modify_self {α : Type} (m : List (String × α)) (k : String)
    (f : α → α) : hmFind (hmModify m k f) k = (hmFind m k).map f := by
  induction m with
  | nil => rfl
  | cons p rest ih =>
    obtain ⟨k1, v1⟩ := p
    by_cases h : k1 = k <;> simp [hmModify, hmFind, h, ih]

theorem hmFind_modify_ne {α : Type} (m : List (String × α)) (k k2 : String)
    (f : α → α) (h : k ≠ k2) : hmFind (hmModify m k2 f) k = hmFind m k := by
  induction m with
  | nil => rfl
  | cons p rest ih =>
    obtain ⟨k1, v1⟩ := p
    by_cases h1 : k1 = k2
    · have h2 : k1 ≠ k := by rw [h1]; exact Ne.symm h
      simp [hmModify, hmFind, h1, h2, Ne.symm h]
    · by_cases h2 : k1 = k <;> simp [hmModify, hmFind, h1, h2, h, ih]

theorem hmModify_of_find_none {α : Type} (m : List (String × α)) (k : String)
    (f : α → α) (h : hmFind m k = none) : hmModify m k f = m := by
  induction m with
  | nil => rfl
  | cons p rest ih =>
    obtain ⟨k1, v1⟩ := p
    by_cases h1 : k1 = k
    · simp [hmFind, h1] at h
    · simp [hmFind, h1] at h
      simp [hmModify, h1, ih h]

theorem hmKeys_modify {α : Type} (m : List (String × α)) (k : String)
    (f : α → α) : hmKeys (hmModify m k f) = hmKeys m := by
  induction m with
  | nil => rfl
  | cons p rest ih =>
    obtain ⟨k1, v1⟩ := p
    by_cases h : k1 = k
    · simp [hmModify, hmKeys, h]
    · simp only [hmModify, if_neg h]
      simp only [hmKeys, List.map_cons] at ih ⊢
      simp [ih]

theorem mem_of_hmFind_some {α : Type} {m : List (String × α)} {k : String}
    {v : α} (h : hmFind m k = some v) : (k, v) ∈ m := by
  induction m with
  | nil => simp [hmFind] at h
  | cons p rest ih =>
    obtain ⟨k1, v1⟩ := p
    by_cases h1 : k1 = k
    · subst h1; simp [hmFind] at h; simp [h]
    · simp [hmFind, h1] at h
      exact List.mem_cons_of_mem _ (ih h)

theorem keys_mem_of_hmFind_some {α : Type} {m : List (String × α)} {k : String}
    {v : α} (h : hmFind m k = some v) : k ∈ hmKeys m := by
  unfold hmKeys
  exact List.mem_map.mpr ⟨(k, v), mem_of_hmFind_some h, rfl⟩

theorem hmFind_eq_none_of_not_mem_keys {α : Type} {m : List (String × α)}
    {k : String} (h : k ∉ hmKeys m) : hmFind m k = none := by
  cases hf : hmFind m k with
  | none => rfl
  | some v => exact absurd (keys_mem_of_hmFind_some hf) h

theorem hmModify_snd_pres (m : List (String × Task)) (k : String)
    (f : Task → Task) (hf : ∀ t : Task, (f t).id = t.id)
    (h : ∀ p ∈ m, (Prod.snd p).id = Prod.fst p) :
    ∀ p ∈ hmModify m k f, (Prod.snd p).id = Prod.fst p := by
  induction m with
  | nil => simp [hmModify]
  | cons p rest ih =>
    obtain ⟨k1, v1⟩ := p
    by_cases h1 : k1 = k
    · simp only [hmModify, if_pos h1]
      intro q hq
      rcases List.mem_cons.mp hq with hq | hq
      · subst hq; simpa [hf v1] using h (k1, v1) (List.mem_cons_self _ _)
      · exact h q (List.mem_cons_of_mem _ hq)
    · simp only [hmModify, if_neg h1]
      intro q hq
      rcases List.mem_cons.mp hq with hq | hq
      · subst hq; exact h (k1, v1) (List.mem_cons_self _ _)
      · exact ih (fun r hr => h r (List.mem_cons_of_mem _ hr)) q hq

/-! ### Well-formedness lemmas -/

theorem TaskList.WF.update {tl : TaskList} (h : tl.WF) (task_id : String)
    (status : TaskStatus) (result : Option ChatResponse) :
    (tl.update_task_status task_id status result).WF := by
  obtain ⟨hnd, hid⟩ := h
  constructor
  · simpa [TaskList.update_task_status, hmKeys_modify] using hnd
  · exact hmModify_snd_pres _ _ _ (fun t => rfl) hid

theorem values_map_id (m : List (String × Task))
    (hid : ∀ p ∈ m, (Prod.snd p).id = Prod.fst p) :
    (hmValues m).map Task.id = hmKeys m := by
  induction m with
  | nil => rfl
  | cons p rest ih =>
    obtain ⟨k1, v1⟩ := p
    have h1 : v1.id = k1 := hid (k1, v1) (List.mem_cons_self _ _)
    have hrest : ∀ q ∈ rest, (Prod.snd q).id = Prod.fst q :=
      fun q hq => hid q (List.mem_cons_of_mem _ hq)
    have h2 := ih hrest
    simp only [hmValues, hmKeys, List.map_cons] at h2 ⊢
    simp [h1, h2]

theorem find_value_of_mem (m : List (String × Task))
    (hnd : (hmKeys m).Nodup) (hid : ∀ p ∈ m, (Prod.snd p).id = Prod.fst p)
    (t : Task) (ht : t ∈ hmValues m) : hmFind m t.id = some t := by
  induction m with
  | nil => simp [hmValues] at ht
  | cons p rest ih =>
    obtain ⟨k1, v1⟩ := p
    have h1 : v1.id = k1 := hid (k1, v1) (List.mem_cons_self _ _)
    have hcons : hmKeys ((k1, v1) :: rest) = k1 :: hmKeys rest := rfl
    rw [hcons] at hnd
    have hnd2 := List.nodup_cons.mp hnd
    have hrest : ∀ q ∈ rest, (Prod.snd q).id = Prod.fst q :=
      fun q hq => hid q (List.mem_cons_of_mem _ hq)
    have hv : t = v1 ∨ t ∈ hmValues rest := by
      simpa [hmValues] using ht
    rcases hv with hv | hv
    · subst hv
      simp [hmFind, h1]
    · have hfind := ih hnd2.2 hrest hv
      have hne : k1 ≠ t.id := by
        intro hk
        apply hnd2.1
        rw [hk]
        exact keys_mem_of_hmFind_some hfind
      simp [hmFind, hne, hfind]

theorem TaskList.WF.get_task_of_mem {tl : TaskList} (h : tl.WF) {t : Task}
    (ht : t ∈ hmValues tl.tasks) : tl.get_task t.id = some t :=
  find_value_of_mem tl.tasks h.1 h.2 t ht

/-! ### Readiness lemmas -/

theorem dep_completed_iff (tl : TaskList) (d : String) :
    tl.dep_completed d = true ↔
      ∃ dt, tl.get_task d = some dt ∧ dt.status = TaskStatus.Completed := by
  cases h : tl.get_task d <;> simp [TaskList.dep_completed, h]

theorem mem_ready_iff (tl : TaskList) (t : Task) :
    t ∈ tl.get_ready_tasks ↔
      t ∈ hmValues tl.tasks ∧ t.status = TaskStatus.Pending ∧
        ∀ d ∈ t.dependencies,
          ∃ dt, tl.get_task d = some dt ∧ dt.status = TaskStatus.Completed := by
  simp [TaskList.get_ready_tasks, List.mem_filter, List.all_eq_true,
    dep_completed_iff, and_assoc]

theorem ready_ids_nodup (tl : TaskList) (h : tl.WF) :
    (tl.get_ready_tasks.map Task.id).Nodup := by
  have hvals : ((hmValues tl.tasks).map Task.id).Nodup := by
    rw [values_map_id tl.tasks h.2]; exact h.1
  have hsub : List.Sublist (tl.get_ready_tasks.map Task.id)
      ((hmValues tl.tasks).map Task.id) :=
    List.Sublist.map Task.id (List.filter_sublist _)
  exact hvals.sublist hsub

/-! ### Claim C1: readiness correctness -/

/-- Claim C1: for every task list and every task `T`, `T` is in the
result of `get_ready_tasks()` iff `T` is a task of the list, its status
is `Pending`, and every dependency id of `T` resolves to a task in the
list whose status is `Completed`; a dependency id that resolves to no
task, or to a task in any non-`Completed` status, excludes `T`. -/
theorem ready_tasks_iff (tl : TaskList) (t : Task) :
    t ∈ tl.get_ready_tasks ↔
      t ∈ hmValues tl.tasks ∧ t.status = TaskStatus.Pending ∧
        ∀ d ∈ t.dependencies,
          ∃ dt, tl.get_task d = some dt ∧ dt.status = TaskStatus.Completed :=
  mem_ready_iff tl t

/-! ### Claim C4: terminal states and `update_task_status` -/

/-- Claim C4 counterexample: `update_task_status` has no terminal-state
guard — on a `Completed` task carrying a result, a subsequent call
overwrites both status and result, so "no subsequent call changes a
terminal task" is false of the code. -/
theorem update_overwrites_terminal :
    (tlDone.get_task "a").map Task.status = some TaskStatus.Completed ∧
    ((tlDone.update_task_status "a" TaskStatus.Pending none).get_task "a").map
        Task.status = some TaskStatus.Pending ∧
    ((tlDone.update_task_status "a" TaskStatus.Pending none).get_task "a").map
        Task.result = some none := by
  decide

/-- Claim C4 (amended): `update_task_status` unconditionally overwrites
the status and result of the task bound to an existing id — including a
task already `Completed` or `Failed` — and is a no-op only for unknown
ids; terminal states are not protected by this function (within the
execution loop they are never targeted, but that is a property of the
loop, not of `update_task_status`). -/
theorem update_task_status_spec (tl : TaskList) (task_id : String)
    (status : TaskStatus) (result : Option ChatResponse) :
    (∀ t, tl.get_task task_id = some t →
        (tl.update_task_status task_id status result).get_task task_id =
          some { t with status := status, result := result }) ∧
    (tl.get_task task_id = none →
        tl.update_task_status task_id status result = tl) := by
  constructor
  · intro t ht
    simp [TaskList.update_task_status, TaskList.get_task, hmFind_modify_self,
      TaskList.get_task] at ht ⊢
    simp [ht]
  · intro ht
    simp only [TaskList.get_task] at ht
    cases tl with
    | mk tasks order =>
      simp [TaskList.update_task_status, hmModify_of_find_none _ _ _ ht]

/-- Claim C4 (amended) witness at a concrete input. -/
theorem update_task_status_spec_witness :
    (tlDone.update_task_status "a" TaskStatus.Failed none).get_task "a" =
      some { doneTaskA with status := TaskStatus.Failed, result := none } :=
  (update_task_status_spec tlDone "a" TaskStatus.Failed none).1 doneTaskA
    (by decide)

/-! ### Claim C6: order recomputation on structural mutation -/

/-- Claim C6 counterexample: `remove_task` does not recompute
`execution_order` — after removing task `a`, the cached order still
contains the removed id, and differs from what a recomputation yields. -/
theorem remove_task_stale_order :
    (tl6.remove_task "a").get_task "a" = none ∧
    (tl6.remove_task "a").execution_order = ["a", "b"] ∧
    (TaskList.rebuild_execution_order (tl6.remove_task "a")).execution_order =
      ["b"] := by
  decide

/-- Claim C6 (amended): `add_task` recomputes `execution_order` (it is
exactly a rebuild over the map extended with the new task), but
`remove_task` performs no recomputation — it deletes the binding and
leaves `execution_order` unchanged. -/
theorem mutation_order_recompute (tl : TaskList) (task : Task)
    (task_id : String) :
    (tl.add_task task).execution_order =
      (TaskList.rebuild_execution_order
        { tasks := hmInsert tl.tasks task.id task,
          execution_order := tl.execution_order }).execution_order ∧
    (tl.remove_task task_id).execution_order = tl.execution_order :=
  ⟨rfl, rfl⟩

/-! ### Termination of the cycle-tolerant sort -/

theorem filter_length_mono {α : Type} (l : List α) (p q : α → Bool)
    (himp : ∀ x, q x = true → p x = true) :
    (l.filter q).length ≤ (l.filter p).length := by
  induction l with
  | nil => simp
  | cons b rest ih =>
    by_cases hq : q b = true
    · simp [List.filter_cons, hq, himp b hq]
      omega
    · have hq2 : q b = false := by revert hq; cases q b <;> simp
      cases hp : p b <;> simp [List.filter_cons, hq2, hp] <;> omega

theorem filter_length_lt {α : Type} (l : List α) (p q : α → Bool)
    (himp : ∀ x, q x = true → p x = true) (a : α) (ha : a ∈ l)
    (hpa : p a = true) (hqa : q a = false) :
    (l.filter q).length < (l.filter p).length := by
  induction l with
  | nil => simp at ha
  | cons b rest ih =>
    rcases List.mem_cons.mp ha with hb | hb
    · subst hb
      have hle := filter_length_mono rest p q himp
      simp [List.filter_cons, hpa, hqa]
      omega
    · have hlt := ih hb
      by_cases hq : q b = true
      · simp [List.filter_cons, hq, himp b hq]
        omega
      · have hq2 : q b = false := by revert hq; cases q b <;> simp
        cases hp : p b <;> simp [List.filter_cons, hq2, hp] <;> omega

theorem keys_not_in_lt (tl : TaskList) (tid : String) (temp : List String)
    (hmem : tid ∈ hmKeys tl.tasks) (htemp : tid ∉ temp) :
    keys_not_in tl (tid :: temp) < keys_not_in tl temp := by
  refine filter_length_lt (hmKeys tl.tasks) (fun k => decide (k ∉ temp))
    (fun k => decide (k ∉ tid :: temp)) ?_ tid hmem ?_ ?_
  · intro x hx
    simp only [decide_eq_true_eq] at hx ⊢
    intro hmem2
    exact hx (List.mem_cons_of_mem _ hmem2)
  · simpa using htemp
  · simp

theorem topo_fuel (tl : TaskList) : ∀ fuel : Nat,
    (∀ tid temp v o, keys_not_in tl temp + 1 ≤ fuel →
      (tl.topological_sort fuel tid temp v o).isSome = true) ∧
    (∀ deps temp v o, keys_not_in tl temp + 1 ≤ fuel →
      (topo_sort_deps (tl.topological_sort fuel) deps temp v o).isSome = true) := by
  intro fuel
  induction fuel with
  | zero =>
    constructor
    · intro tid temp v o h; exact absurd h (by omega)
    · intro deps temp v o h; exact absurd h (by omega)
  | succ f ih =>
    have hvisit : ∀ tid temp v o, keys_not_in tl temp + 1 ≤ f + 1 →
        (tl.topological_sort (f + 1) tid temp v o).isSome = true := by
      intro tid temp v o h
      simp only [TaskList.topological_sort]
      by_cases h1 : tid ∈ temp
      · simp [h1]
      · by_cases h2 : tid ∈ v
        · simp [h1, h2]
        · simp only [if_neg h1, if_neg h2]
          cases hg : tl.get_task tid with
          | none =>
            have hdeps : tl.deps_of tid = [] := by
              simp [TaskList.deps_of, hg]
            simp [hdeps, topo_sort_deps]
          | some task =>
            have hmem : tid ∈ hmKeys tl.tasks :=
              keys_mem_of_hmFind_some (by simpa [TaskList.get_task] using hg)
            have hlt : keys_not_in tl (tid :: temp) + 1 ≤ f := by
              have := keys_not_in_lt tl tid temp hmem h1
              omega
            have hsome := ih.2 (tl.deps_of tid) (tid :: temp) v o hlt
            cases hres : topo_sort_deps (tl.topological_sort f)
                (tl.deps_of tid) (tid :: temp) v o with
            | none => rw [hres] at hsome; simp at hsome
            | some p => obtain ⟨v1, o1⟩ := p; simp [hres]
    constructor
    · exact hvisit
    · intro deps
      induction deps with
      | nil => intro temp v o h; simp [topo_sort_deps]
      | cons dep rest ihd =>
        intro temp v o h
        simp only [topo_sort_deps]
        have h1 := hvisit dep temp v o h
        cases hres : tl.topological_sort (f + 1) dep temp v o with
        | none => rw [hres] at h1; simp at h1
        | some p =>
          obtain ⟨v1, o1⟩ := p
          simp only [hres]
          exact ihd temp v1 o1 h

theorem rebuild_aux_some (tl : TaskList) :
    ∀ ks v o, (tl.rebuild_order_aux ks v o).isSome = true := by
  intro ks
  induction ks with
  | nil => intro v o; simp [TaskList.rebuild_order_aux]
  | cons k rest ih =>
    intro v o
    simp only [TaskList.rebuild_order_aux]
    by_cases h1 : k ∈ v
    · simp [h1, ih]
    · simp only [if_neg h1]
      have hbound : keys_not_in tl [] + 1 ≤ tl.rebuild_fuel := by
        simp [keys_not_in, TaskList.rebuild_fuel, hmKeys, List.length_map]
      have hsome := (topo_fuel tl tl.rebuild_fuel).1 k [] v o hbound
      cases hres : tl.topological_sort tl.rebuild_fuel k [] v o with
      | none => rw [hres] at hsome; simp at hsome
      | some p => obtain ⟨v1, o1⟩ := p; simp [hres, ih]

/-! ### Claim C9: the rebuild always terminates and returns normally -/

/-- Claim C9: for every finite task map — cyclic and dangling dependency
relations included — `rebuild_execution_order`'s traversal terminates
and returns normally (the fuelled model never reaches fuel exhaustion at
the fuel the rebuild supplies), and a depth-first step that reaches a
task already on the in-progress path (`temp_visited`) abandons that edge
silently, returning the accumulated state unchanged. -/
theorem rebuild_order_terminates : ∀ tl : TaskList,
    (tl.rebuild_order_aux (hmKeys tl.tasks) [] []).isSome = true ∧
    ∀ fuel tid temp v o, tid ∈ temp →
      tl.topological_sort (fuel + 1) tid temp v o = some (v, o) := by
  intro tl
  constructor
  · exact rebuild_aux_some tl (hmKeys tl.tasks) [] []
  · intro fuel tid temp v o htemp
    simp [TaskList.topological_sort, htemp]

/-- Claim C9 witness: the two-task cycle terminates normally, and a
cyclic edge is abandoned silently. -/
theorem rebuild_order_terminates_witness :
    ((wfCyc.tasks).rebuild_order_aux (hmKeys (wfCyc.tasks).tasks) [] []).isSome
      = true ∧
    (wfCyc.tasks).topological_sort 1 "a" ["a"] [] ["x"] = some ([], ["x"]) :=
  ⟨(rebuild_order_terminates wfCyc.tasks).1,
   (rebuild_order_terminates wfCyc.tasks).2 0 "a" ["a"] [] ["x"] (by decide)⟩

/-! ### Invariants of the depth-first traversal -/

theorem topo_deps_inv
    (visit : String → List String → List String → List String →
      Option (List String × List String))
    (hvisit : ∀ tid temp v o v2 o2, visit tid temp v o = some (v2, o2) →
      v ⊆ v2 ∧ (∀ x ∈ temp, x ∈ v2 → x ∈ v) ∧
        (topo_inv v o → topo_inv v2 o2)) :
    ∀ deps temp v o v2 o2,
      topo_sort_deps visit deps temp v o = some (v2, o2) →
        v ⊆ v2 ∧ (∀ x ∈ temp, x ∈ v2 → x ∈ v) ∧
          (topo_inv v o → topo_inv v2 o2) := by
  intro deps
  induction deps with
  | nil =>
    intro temp v o v2 o2 h
    simp only [topo_sort_deps, Option.some.injEq, Prod.mk.injEq] at h
    obtain ⟨rfl, rfl⟩ := h
    exact ⟨fun x hx => hx, fun x _ hx => hx, fun hq => hq⟩
  | cons dep rest ih =>
    intro temp v o v2 o2 h
    simp only [topo_sort_deps] at h
    cases hres : visit dep temp v o with
    | none => rw [hres] at h; simp at h
    | some p =>
      obtain ⟨v1, o1⟩ := p
      rw [hres] at h
      obtain ⟨hs1, ht1, hi1⟩ := hvisit dep temp v o v1 o1 hres
      obtain ⟨hs2, ht2, hi2⟩ := ih temp v1 o1 v2 o2 h
      refine ⟨fun x hx => hs2 (hs1 hx), ?_, fun hq => hi2 (hi1 hq)⟩
      intro x hxt hx2
      exact ht1 x hxt (ht2 x hxt hx2)

theorem topo_visit_inv (tl : TaskList) : ∀ fuel tid temp v o v2 o2,
    tl.topological_sort fuel tid temp v o = some (v2, o2) →
      v ⊆ v2 ∧ (∀ x ∈ temp, x ∈ v2 → x ∈ v) ∧
        (topo_inv v o → topo_inv v2 o2) ∧ (tid ∉ temp → tid ∈ v2) := by
  intro fuel
  induction fuel with
  | zero =>
    intro tid temp v o v2 o2 h
    simp [TaskList.topological_sort] at h
  | succ f ih =>
    intro tid temp v o v2 o2 h
    simp only [TaskList.topological_sort] at h
    by_cases h1 : tid ∈ temp
    · rw [if_pos h1] at h
      simp only [Option.some.injEq, Prod.mk.injEq] at h
      obtain ⟨rfl, rfl⟩ := h
      exact ⟨fun x hx => hx, fun x _ hx => hx, fun hq => hq,
        fun hn => absurd h1 hn⟩
    · rw [if_neg h1] at h
      by_cases h2 : tid ∈ v
      · rw [if_pos h2] at h
        simp only [Option.some.injEq, Prod.mk.injEq] at h
        obtain ⟨rfl, rfl⟩ := h
        exact ⟨fun x hx => hx, fun x _ hx => hx, fun hq => hq, fun _ => h2⟩
      · rw [if_neg h2] at h
        cases hres : topo_sort_deps (tl.topological_sort f) (tl.deps_of tid)
            (tid :: temp) v o with
        | none => rw [hres] at h; simp at h
        | some p =>
          obtain ⟨v1, o1⟩ := p
          rw [hres] at h
          simp only [Option.some.injEq, Prod.mk.injEq] at h
          obtain ⟨hv2, ho2⟩ := h
          subst hv2; subst ho2
          have hd := topo_deps_inv (tl.topological_sort f)
            (fun a b c d e g hx =>
              ⟨(ih a b c d e g hx).1, (ih a b c d e g hx).2.1,
               (ih a b c d e g hx).2.2.1⟩)
            (tl.deps_of tid) (tid :: temp) v o v1 o1 hres
          obtain ⟨hsub, htemp, hinv⟩ := hd
          have htid1 : tid ∉ v1 := by
            intro hmem
            exact h2 (htemp tid (List.mem_cons_self _ _) hmem)
          refine ⟨fun x hx => List.mem_cons_of_mem _ (hsub hx), ?_, ?_,
            fun _ => List.mem_cons_self _ _⟩
          · intro x hxt hx2
            rcases List.mem_cons.mp hx2 with hx2 | hx2
            · exact absurd (hx2 ▸ hxt) h1
            · exact htemp x (List.mem_cons_of_mem _ hxt) hx2
          · intro hq
            have hq1 := hinv hq
            intro x
            by_cases hx : x = tid
            · subst hx
              have hcx : o1.count x = 0 := by
                rw [hq1 x]
                simp [htid1]
              simp [List.count_append, hcx, List.count_cons,
                List.mem_cons]
            · have hxne : tid ≠ x := fun hh => hx hh.symm
              rw [List.count_append, hq1 x]
              have hone : List.count x [tid] = 0 := by
                simp [List.count_singleton', hxne]
              rw [hone]
              by_cases hxv : x ∈ v1 <;>
                simp [hxv, hx, List.mem_cons]

theorem rebuild_aux_inv (tl : TaskList) : ∀ ks v o v2 o2,
    tl.rebuild_order_aux ks v o = some (v2, o2) →
      v ⊆ v2 ∧ (topo_inv v o → topo_inv v2 o2) ∧ ∀ k ∈ ks, k ∈ v2 := by
  intro ks
  induction ks with
  | nil =>
    intro v o v2 o2 h
    simp only [TaskList.rebuild_order_aux, Option.some.injEq,
      Prod.mk.injEq] at h
    obtain ⟨rfl, rfl⟩ := h
    exact ⟨fun x hx => hx, fun hq => hq, by simp⟩
  | cons k rest ih =>
    intro v o v2 o2 h
    simp only [TaskList.rebuild_order_aux] at h
    by_cases h1 : k ∈ v
    · rw [if_pos h1] at h
      obtain ⟨hs, hi, hk⟩ := ih v o v2 o2 h
      refine ⟨hs, hi, ?_⟩
      intro x hx
      rcases List.mem_cons.mp hx with hx | hx
      · exact hx ▸ hs h1
      · exact hk x hx
    · rw [if_neg h1] at h
      cases hres : tl.topological_sort tl.rebuild_fuel k [] v o with
      | none => rw [hres] at h; simp at h
      | some p =>
        obtain ⟨v1, o1⟩ := p
        rw [hres] at h
        obtain ⟨hs1, _, hi1, hk1⟩ :=
          topo_visit_inv tl tl.rebuild_fuel k [] v o v1 o1 hres
        obtain ⟨hs2, hi2, hk2⟩ := ih v1 o1 v2 o2 h
        refine ⟨fun x hx => hs2 (hs1 hx), fun hq => hi2 (hi1 hq), ?_⟩
        intro x hx
        rcases List.mem_cons.mp hx with hx | hx
        · exact hx ▸ hs2 (hk1 (by simp))
        · exact hk2 x hx

/-! ### Claim C10: completeness of the rebuilt order -/

/-- Claim C10: after any `add_task` call, `execution_order` contains
every task id currently in the map exactly once — no id is omitted or
duplicated — even when the dependency relation contains cycles or ids
absent from the map. -/
theorem add_task_order_complete (tl : TaskList) (task : Task) :
    ∀ k ∈ hmKeys (tl.add_task task).tasks,
      ((tl.add_task task).execution_order).count k = 1 := by
  intro k hk
  unfold TaskList.add_task at hk ⊢
  set tl2 : TaskList :=
    { tl with tasks := hmInsert tl.tasks task.id task } with htl2
  have hsome := rebuild_aux_some tl2 (hmKeys tl2.tasks) [] []
  cases hres : tl2.rebuild_order_aux (hmKeys tl2.tasks) [] [] with
  | none => rw [hres] at hsome; simp at hsome
  | some p =>
    obtain ⟨v2, o2⟩ := p
    obtain ⟨_, hi, hkall⟩ :=
      rebuild_aux_inv tl2 (hmKeys tl2.tasks) [] [] v2 o2 hres
    have hbase : topo_inv [] [] := by
      intro x; simp
    have hinv := hi hbase
    have horder : (TaskList.rebuild_execution_order tl2).execution_order = o2 := by
      simp [TaskList.rebuild_execution_order, hres]
    have hktasks : (TaskList.rebuild_execution_order tl2).tasks = tl2.tasks := by
      simp [TaskList.rebuild_execution_order, hres]
    rw [hktasks] at hk
    rw [horder, hinv k]
    simp [hkall k hk]

/-- Claim C10 witness at a concrete input. -/
theorem add_task_order_complete_witness :
    ((TaskList.mkNew.add_task (mkTask "a" "ag" [])).execution_order).count "a"
      = 1 :=
  add_task_order_complete TaskList.mkNew (mkTask "a" "ag" []) "a" (by decide)

/-! ### Round lemmas -/

theorem update_get_other (tl : TaskList) (task_id k : String)
    (status : TaskStatus) (result : Option ChatResponse) (h : k ≠ task_id) :
    (tl.update_task_status task_id status result).get_task k =
      tl.get_task k := by
  simp [TaskList.update_task_status, TaskList.get_task,
    hmFind_modify_ne _ _ _ _ h]

theorem dispatch_agents (wf : Workflow) (task : Task) :
    (dispatch_task wf task).agents = wf.agents := by
  simp only [dispatch_task]
  split
  · rfl
  · split <;> rfl

theorem dispatch_get_other (wf : Workflow) (task : Task) (k : String)
    (h : k ≠ task.id) :
    (dispatch_task wf task).tasks.get_task k = wf.tasks.get_task k := by
  simp only [dispatch_task]
  split
  · exact update_get_other _ _ _ _ _ h
  · split
    · rw [update_get_other _ _ _ _ _ h, update_get_other _ _ _ _ _ h]
    · rw [update_get_other _ _ _ _ _ h, update_get_other _ _ _ _ _ h]
    · exact update_get_other _ _ _ _ _ h

theorem round_get_other (l : List Task) (wf : Workflow) (k : String)
    (h : ∀ u ∈ l, u.id ≠ k) :
    (l.foldl dispatch_task wf).tasks.get_task k = wf.tasks.get_task k := by
  induction l generalizing wf with
  | nil => rfl
  | cons u rest ih =>
    have hu : u.id ≠ k := h u (List.mem_cons_self _ _)
    have hrest : ∀ x ∈ rest, x.id ≠ k :=
      fun x hx => h x (List.mem_cons_of_mem _ hx)
    rw [List.foldl_cons, ih _ hrest,
      dispatch_get_other wf u k (fun hk => hu hk.symm)]

theorem round_agents (l : List Task) (wf : Workflow) :
    (l.foldl dispatch_task wf).agents = wf.agents := by
  induction l generalizing wf with
  | nil => rfl
  | cons u rest ih => rw [List.foldl_cons, ih, dispatch_agents]

theorem dispatch_WF (wf : Workflow) (task : Task) (h : wf.tasks.WF) :
    (dispatch_task wf task).tasks.WF := by
  simp only [dispatch_task]
  split
  · exact h.update _ _ _
  · split
    · exact (h.update _ _ _).update _ _ _
    · exact (h.update _ _ _).update _ _ _
    · exact h.update _ _ _

theorem round_WF (l : List Task) (wf : Workflow) (h : wf.tasks.WF) :
    (l.foldl dispatch_task wf).tasks.WF := by
  induction l generalizing wf with
  | nil => exact h
  | cons u rest ih => rw [List.foldl_cons]; exact ih _ (dispatch_WF wf u h)

theorem dispatch_writeback (wf : Workflow) (t : Task) (t0 : Task)
    (hfind : wf.tasks.get_task t.id = some t0) :
    ((dispatch_task wf t).tasks.get_task t.id).map
        (fun u => (u.status, u.result)) = some (dispatch_outcome wf t) := by
  have hrun :
      ((wf.tasks.update_task_status t.id TaskStatus.Running none).get_task
        t.id) = some { t0 with status := TaskStatus.Running, result := none } := by
    simp only [TaskList.update_task_status, TaskList.get_task] at hfind ⊢
    simp [hmFind_modify_self, hfind]
  simp only [dispatch_task, dispatch_outcome]
  split
  · simp [hrun]
  · split
    · simp only [TaskList.update_task_status, TaskList.get_task] at hrun ⊢
      simp [hmFind_modify_self, hrun]
    · simp only [TaskList.update_task_status, TaskList.get_task] at hrun ⊢
      simp [hmFind_modify_self, hrun]
    · simp [hrun]

theorem round_writeback_aux (wf : Workflow) (pre post : List Task) (t : Task)
    (hwf : wf.tasks.WF) (hready : wf.tasks.get_ready_tasks = pre ++ t :: post) :
    ((process_round wf (pre ++ t :: post)).tasks.get_task t.id).map
        (fun u => (u.status, u.result)) =
      some (dispatch_outcome (process_round wf pre) t) := by
  have hnodup := ready_ids_nodup wf.tasks hwf
  rw [hready] at hnodup
  simp only [List.map_append, List.map_cons] at hnodup
  have hpost : t.id ∉ post.map Task.id := by
    have h2 := hnodup.of_append_right
    exact (List.nodup_cons.mp h2).1
  have hpre : t.id ∉ pre.map Task.id := by
    have hdisj := List.disjoint_of_nodup_append hnodup
    intro hin
    exact hdisj hin (List.mem_cons_self _ _)
  have hmem : t ∈ wf.tasks.get_ready_tasks := by
    rw [hready]
    exact List.mem_append_right _ (List.mem_cons_self _ _)
  have hvals : t ∈ hmValues wf.tasks.tasks := ((mem_ready_iff _ _).mp hmem).1
  have hfind : wf.tasks.get_task t.id = some t := hwf.get_task_of_mem hvals
  have hsplit : process_round wf (pre ++ t :: post) =
      post.foldl dispatch_task (dispatch_task (process_round wf pre) t) := by
    simp [process_round, List.foldl_append]
  have hpre_ne : ∀ u ∈ pre, u.id ≠ t.id := by
    intro u hu hk
    exact hpre (hk ▸ List.mem_map_of_mem Task.id hu)
  have hpost_ne : ∀ u ∈ post, u.id ≠ t.id := by
    intro u hu hk
    exact hpost (hk ▸ List.mem_map_of_mem Task.id hu)
  have hmid : (process_round wf pre).tasks.get_task t.id = some t := by
    rw [process_round, round_get_other pre wf t.id hpre_ne]
    exact hfind
  rw [hsplit, round_get_other post _ t.id hpost_ne]
  exact dispatch_writeback (process_round wf pre) t t hmid

theorem dispatch_outcome_not_pending (wf : Workflow) (t : Task) :
    (dispatch_outcome wf t).1 ≠ TaskStatus.Pending := by
  simp only [dispatch_outcome]
  split
  · simp
  · split <;> simp

/-! ### Claim C5: per-dispatch write-back -/

/-- Claim C5 counterexample: with one ready task whose agent's call
panics inside the spawned unit, the round writes nothing back — the
task ends the round `Running`, not `Failed` as the claim states for
panics (the `JoinError` surfacing at workflow.rs 276-277 is only
logged). -/
theorem panicked_leaves_running :
    ((process_round wfPanicking
        wfPanicking.tasks.get_ready_tasks).tasks.get_task "p").map
      Task.status = some TaskStatus.Running ∧
    ¬ ((process_round wfPanicking
        wfPanicking.tasks.get_ready_tasks).tasks.get_task "p").map
      Task.status = some TaskStatus.Failed := by
  decide

/-- Claim C5 (amended): for every task `t` dispatched in a round (the
ready list split as `pre ++ t :: post`), the end-of-round map holds for
`t.id` exactly the pair `dispatch_outcome` determines: agent found and
`Ok` — `Completed` with the produced result; agent found and `Err` —
`Failed` with no result; agent missing, or a panic in the spawned unit —
no write-back at all, so the task keeps the `Running` mark rather than
becoming `Failed`.  Sibling dispatches before (`pre`) and after
(`post`) `t` in the same round never prevent `t`'s write-back. -/
theorem round_writeback (wf : Workflow) (pre post : List Task) (t : Task)
    (hwf : wf.tasks.WF)
    (hready : wf.tasks.get_ready_tasks = pre ++ t :: post) :
    ((process_round wf wf.tasks.get_ready_tasks).tasks.get_task t.id).map
        (fun u => (u.status, u.result)) =
      some (dispatch_outcome (process_round wf pre) t) := by
  rw [hready]
  exact round_writeback_aux wf pre post t hwf hready

/-- Claim C5 (amended) witness at a concrete input. -/
theorem round_writeback_witness :
    ((process_round wfGood wfGood.tasks.get_ready_tasks).tasks.get_task
        (mkTask "g" "ag" []).id).map (fun u => (u.status, u.result)) =
      some (TaskStatus.Completed, some { content := "r" }) := by
  have h := round_writeback wfGood [] [] (mkTask "g" "ag" [])
    (by decide) (by decide)
  exact h

/-! ### Claim C8: no double dispatch -/

/-- Claim C8: a task selected into a round's ready set is marked
`Running` before its executor call is issued, and every write the round
performs is to a non-`Pending` status; hence after the round the task is
not `Pending` and cannot be selected into the next round's ready set —
no task is selected into two rounds' ready sets without an intervening
transition out of `Pending`. -/
theorem no_double_dispatch (wf : Workflow) (t : Task) (hwf : wf.tasks.WF)
    (ht : t ∈ wf.tasks.get_ready_tasks) :
    ((process_round wf wf.tasks.get_ready_tasks).tasks.get_task t.id).map
        Task.status ≠ some TaskStatus.Pending ∧
    ∀ u ∈ (process_round wf wf.tasks.get_ready_tasks).tasks.get_ready_tasks,
      u.id ≠ t.id := by
  obtain ⟨pre, post, hready⟩ := List.append_of_mem ht
  have haux := round_writeback_aux wf pre post t hwf hready
  rw [← hready] at haux
  have hstat : ((process_round wf wf.tasks.get_ready_tasks).tasks.get_task
      t.id).map Task.status ≠ some TaskStatus.Pending := by
    cases hget : (process_round wf
        wf.tasks.get_ready_tasks).tasks.get_task t.id with
    | none => rw [hget] at haux; simp at haux
    | some u =>
      rw [hget] at haux
      simp only [Option.map_some', Option.some.injEq] at haux
      have hus : u.status = (dispatch_outcome (process_round wf pre) t).1 :=
        congrArg Prod.fst haux
      simp only [Option.map_some', ne_eq, Option.some.injEq]
      rw [hus]
      exact dispatch_outcome_not_pending _ _
  refine ⟨hstat, ?_⟩
  intro u hu hk
  have hwf2 : (process_round wf wf.tasks.get_ready_tasks).tasks.WF :=
    round_WF _ _ hwf
  obtain ⟨huv, hup, _⟩ := (mem_ready_iff _ _).mp hu
  have hufind := hwf2.get_task_of_mem huv
  rw [hk] at hufind
  apply hstat
  rw [hufind]
  simp [hup]

/-- Claim C8 witness at a concrete input. -/
theorem no_double_dispatch_witness :
    ((process_round wfGood wfGood.tasks.get_ready_tasks).tasks.get_task
        (mkTask "g" "ag" []).id).map Task.status ≠ some TaskStatus.Pending ∧
    ∀ u ∈ (process_round wfGood
        wfGood.tasks.get_ready_tasks).tasks.get_ready_tasks,
      u.id ≠ (mkTask "g" "ag" []).id :=
  no_double_dispatch wfGood (mkTask "g" "ag" []) (by decide) (by decide)

/-! ### Claim C2: missing agent -/

theorem execute_workflow_spin (wf : Workflow) (h1 : wf.is_complete = false)
    (h2 : wf.tasks.get_ready_tasks = []) (h3 : wf.pending_count = 0) :
    ∀ fuel, execute_workflow fuel wf = none := by
  intro fuel
  induction fuel with
  | zero => rfl
  | succ f ih => simp [execute_workflow, h1, h2, h3, ih]

/-- Claim C2 (code bug): a ready task whose `agent_id` is not in the
agents registry is NOT transitioned to `Failed`: the spawned unit's
`if let Some(agent)` guard (workflow.rs 251) makes the whole execution a
no-op, so the task stays `Running` forever.  The independent task `a`
still completes, but afterwards the loop can never finish: `b` is
neither terminal (so `is_complete` stays false) nor `Pending` (so the
ready set and `pending_count` stay empty/zero) and the loop spins on its
`continue` branch — modelled as `execute_workflow` returning `none` at
every fuel. -/
theorem missing_agent_stuck :
    ((process_round wfMissing
        wfMissing.tasks.get_ready_tasks).tasks.get_task "b").map
      Task.status = some TaskStatus.Running ∧
    ((process_round wfMissing
        wfMissing.tasks.get_ready_tasks).tasks.get_task "a").map
      Task.status = some TaskStatus.Completed ∧
    ∀ fuel, execute_workflow fuel wfMissing = none := by
  refine ⟨by decide, by decide, ?_⟩
  intro fuel
  cases fuel with
  | zero => rfl
  | succ f =>
    have hstep : execute_workflow (f + 1) wfMissing =
        execute_workflow f (process_round wfMissing
          wfMissing.tasks.get_ready_tasks) := rfl
    rw [hstep]
    exact execute_workflow_spin
      (process_round wfMissing wfMissing.tasks.get_ready_tasks)
      (by decide) (by decide) (by decide) f

/-! ### Claim C3: terminal outcomes of the loop -/

/-- Claim C3 counterexample: the all-cycle two-task graph deadlocks —
the loop breaks with both tasks still `Pending` — yet `execute_workflow`
hands back the very same `Ok` return value (`Ok(())` at workflow.rs 282)
as a successfully completed run: the caller cannot distinguish the two
outcomes from the run's result.  Moreover termination is not
unconditional (see the missing-agent divergence in `missing_agent_stuck`). -/
theorem deadlock_conflated_with_success :
    execute_workflow 1 wfCyc = some (wfCyc, RunReturn.ok) ∧
    wfCyc.tasks.pending_count = 2 ∧
    wfCyc.tasks.is_complete = false ∧
    (execute_workflow 2 wfGood).map Prod.snd = some RunReturn.ok ∧
    ((execute_workflow 2 wfGood).map fun p => p.1.tasks.is_complete) =
      some true :=
  ⟨rfl, by decide, by decide, rfl, rfl⟩

/-- Claim C3 (amended): whenever a run of `execute_workflow` terminates,
the final state satisfies exactly the dichotomy — every task terminal
(`is_complete`), or deadlock (empty ready set with `Pending` tasks
remaining) — but the returned value is `Ok` in both cases, so the two
outcomes are distinguishable only by inspecting the task graph
(`pending_count` / statuses), not from the run's return value; and a run
whose tasks get stuck `Running` (missing agent, panic) need not
terminate at all. -/
theorem execute_workflow_dichotomy : ∀ (fuel : Nat) (wf : Workflow)
    (p : Workflow × RunReturn), execute_workflow fuel wf = some p →
      p.2 = RunReturn.ok ∧
        (p.1.tasks.is_complete = true ∨
          (p.1.tasks.get_ready_tasks = [] ∧ p.1.tasks.pending_count > 0)) := by
  intro fuel
  induction fuel with
  | zero => intro wf p h; simp [execute_workflow] at h
  | succ f ih =>
    intro wf p h
    simp only [execute_workflow] at h
    by_cases h1 : wf.is_complete = true
    · rw [if_pos h1] at h
      obtain rfl : (wf, RunReturn.ok) = p := Option.some.inj h
      exact ⟨rfl, Or.inl h1⟩
    · rw [if_neg h1] at h
      by_cases h2 : wf.tasks.get_ready_tasks.isEmpty = true
      · rw [if_pos h2] at h
        by_cases h3 : wf.pending_count > 0
        · rw [if_pos h3] at h
          obtain rfl : (wf, RunReturn.ok) = p := Option.some.inj h
          exact ⟨rfl, Or.inr ⟨List.isEmpty_iff.mp h2, h3⟩⟩
        · rw [if_neg h3] at h
          exact ih wf p h
      · rw [if_neg h2] at h
        exact ih _ p h

/-- Claim C3 (amended) witness at a concrete input. -/
theorem execute_workflow_dichotomy_witness :
    RunReturn.ok = RunReturn.ok ∧
      (wfCyc.tasks.is_complete = true ∨
        (wfCyc.tasks.get_ready_tasks = [] ∧ wfCyc.tasks.pending_count > 0)) :=
  execute_workflow_dichotomy 1 wfCyc (wfCyc, RunReturn.ok) rfl

/-! ### Context-assembly lemmas -/

theorem mem_keys_of_mem {α : Type} {m : List (String × α)} {k : String}
    {v : α} (h : (k, v) ∈ m) : k ∈ hmKeys m :=
  List.mem_map_of_mem Prod.fst h

theorem mem_keys_hmInsert {α : Type} (m : List (String × α)) (key : String)
    (w : α) (x : String) :
    x ∈ hmKeys (hmInsert m key w) ↔ x ∈ hmKeys m ∨ x = key := by
  induction m with
  | nil => simp [hmInsert, hmKeys]
  | cons p rest ih =>
    obtain ⟨k1, v1⟩ := p
    by_cases h1 : k1 = key
    · subst h1
      simp only [hmInsert, if_pos rfl]
      show x ∈ k1 :: hmKeys rest ↔ x ∈ k1 :: hmKeys rest ∨ x = k1
      constructor
      · exact Or.inl
      · rintro (hx | rfl)
        · exact hx
        · exact List.mem_cons_self _ _
    · simp only [hmInsert, if_neg h1]
      show x ∈ k1 :: hmKeys (hmInsert rest key w) ↔
        x ∈ k1 :: hmKeys rest ∨ x = key
      simp only [List.mem_cons, ih]
      constructor
      · rintro (rfl | hx | rfl)
        · exact Or.inl (Or.inl rfl)
        · exact Or.inl (Or.inr hx)
        · exact Or.inr rfl
      · rintro ((rfl | hx) | rfl)
        · exact Or.inl rfl
        · exact Or.inr (Or.inl hx)
        · exact Or.inr (Or.inr rfl)

theorem hmInsert_keys_nodup {α : Type} (m : List (String × α)) (key : String)
    (w : α) (h : (hmKeys m).Nodup) : (hmKeys (hmInsert m key w)).Nodup := by
  induction m with
  | nil => simp [hmInsert, hmKeys]
  | cons p rest ih =>
    obtain ⟨k1, v1⟩ := p
    have hcons : hmKeys ((k1, v1) :: rest) = k1 :: hmKeys rest := rfl
    rw [hcons] at h
    obtain ⟨hk1, hrest⟩ := List.nodup_cons.mp h
    by_cases h1 : k1 = key
    · subst h1
      simp only [hmInsert, if_pos rfl]
      show (k1 :: hmKeys rest).Nodup
      exact List.nodup_cons.mpr ⟨hk1, hrest⟩
    · simp only [hmInsert, if_neg h1]
      show (k1 :: hmKeys (hmInsert rest key w)).Nodup
      refine List.nodup_cons.mpr ⟨?_, ih hrest⟩
      intro hmem
      rcases (mem_keys_hmInsert rest key w k1).mp hmem with hm | hm
      · exact hk1 hm
      · exact h1 hm

theorem mem_hmInsert {α : Type} (m : List (String × α)) (key : String)
    (w : α) (k : String) (v : α) (hnd : (hmKeys m).Nodup) :
    ((k, v) ∈ hmInsert m key w) ↔
      ((k = key ∧ v = w) ∨ ((k, v) ∈ m ∧ k ≠ key)) := by
  induction m with
  | nil => simp [hmInsert, Prod.mk.injEq]
  | cons p rest ih =>
    obtain ⟨k1, v1⟩ := p
    have hcons : hmKeys ((k1, v1) :: rest) = k1 :: hmKeys rest := rfl
    rw [hcons] at hnd
    obtain ⟨hk1, hrest⟩ := List.nodup_cons.mp hnd
    by_cases h1 : k1 = key
    · subst h1
      simp only [hmInsert, if_pos rfl]
      constructor
      · intro hm
        rcases List.mem_cons.mp hm with hm | hm
        · obtain ⟨hk, hv⟩ := Prod.mk.injEq .. ▸ hm
          exact Or.inl ⟨hk, hv⟩
        · have hkk : k ≠ k1 := by
            intro hkk
            exact hk1 (hkk ▸ mem_keys_of_mem hm)
          exact Or.inr ⟨List.mem_cons_of_mem _ hm, hkk⟩
      · rintro (⟨rfl, rfl⟩ | ⟨hm, hne⟩)
        · exact List.mem_cons_self _ _
        · rcases List.mem_cons.mp hm with hm | hm
          · obtain ⟨hk, _⟩ := Prod.mk.injEq .. ▸ hm
            exact absurd hk hne
          · exact List.mem_cons_of_mem _ hm
    · simp only [hmInsert, if_neg h1]
      constructor
      · intro hm
        rcases List.mem_cons.mp hm with hm | hm
        · obtain ⟨hk, hv⟩ := Prod.mk.injEq .. ▸ hm
          subst hk; subst hv
          exact Or.inr ⟨List.mem_cons_self _ _, h1⟩
        · rcases (ih hrest).mp hm with hcase | ⟨hm2, hne⟩
          · exact Or.inl hcase
          · exact Or.inr ⟨List.mem_cons_of_mem _ hm2, hne⟩
      · rintro (⟨rfl, rfl⟩ | ⟨hm, hne⟩)
        · exact List.mem_cons_of_mem _ ((ih hrest).mpr (Or.inl ⟨rfl, rfl⟩))
        · rcases List.mem_cons.mp hm with hm | hm
          · exact hm ▸ List.mem_cons_self _ _
          · exact List.mem_cons_of_mem _
              ((ih hrest).mpr (Or.inr ⟨hm, hne⟩))

theorem ctx_val_iff (wf : Workflow) (k : String) (v : List Message) :
    ctx_val wf k = some v ↔
      ∃ d r, wf.tasks.get_task k = some d ∧ d.result = some r ∧
        v = r.to_message Role.Assistant := by
  simp only [ctx_val]
  cases hg : wf.tasks.get_task k with
  | none => simp
  | some d =>
    cases hr : d.result with
    | none => simp [hr]
    | some r => simp [hr, eq_comm]

theorem build_context_eq (wf : Workflow) (task : Task) :
    build_context wf task = task.dependencies.foldl
      (fun ctx dep_id =>
        match ctx_val wf dep_id with
        | some msgs => hmInsert ctx dep_id msgs
        | none => ctx) [] := by
  unfold build_context
  refine List.foldl_ext _ _ _ ?_
  intro ctx dep_id _
  simp only [ctx_val]
  cases hg : wf.tasks.get_task dep_id with
  | none => rfl
  | some d =>
    cases hr : d.result with
    | none => simp [hr]
    | some r => simp [hr]

theorem ctx_fold_inv (wf : Workflow) : ∀ (deps : List String)
    (ctx : List (String × List Message)) (P : String → Prop),
    (hmKeys ctx).Nodup →
    (∀ k v, (k, v) ∈ ctx ↔ (P k ∧ ctx_val wf k = some v)) →
    (hmKeys (deps.foldl
      (fun c dep_id =>
        match ctx_val wf dep_id with
        | some msgs => hmInsert c dep_id msgs
        | none => c) ctx)).Nodup ∧
    ∀ k v, (k, v) ∈ deps.foldl
      (fun c dep_id =>
        match ctx_val wf dep_id with
        | some msgs => hmInsert c dep_id msgs
        | none => c) ctx ↔ ((P k ∨ k ∈ deps) ∧ ctx_val wf k = some v) := by
  intro deps
  induction deps with
  | nil =>
    intro ctx P hnd hmem
    refine ⟨hnd, ?_⟩
    intro k v
    rw [List.foldl_nil, hmem]
    simp
  | cons d rest ih =>
    intro ctx P hnd hmem
    rw [List.foldl_cons]
    cases hv : ctx_val wf d with
    | none =>
      simp only [hv]
      have hmem1 : ∀ k v, (k, v) ∈ ctx ↔
          ((P k ∨ k = d) ∧ ctx_val wf k = some v) := by
        intro k v
        rw [hmem]
        constructor
        · rintro ⟨hp, hval⟩; exact ⟨Or.inl hp, hval⟩
        · rintro ⟨hp | rfl, hval⟩
          · exact ⟨hp, hval⟩
          · rw [hv] at hval; cases hval
      obtain ⟨hnd2, hmem2⟩ := ih ctx (fun k => P k ∨ k = d) hnd hmem1
      refine ⟨hnd2, ?_⟩
      intro k v
      rw [hmem2 k v, or_assoc, ← List.mem_cons]
    | some msgs =>
      simp only [hv]
      have hmem1 : ∀ k v, (k, v) ∈ hmInsert ctx d msgs ↔
          ((P k ∨ k = d) ∧ ctx_val wf k = some v) := by
        intro k v
        rw [mem_hmInsert ctx d msgs k v hnd]
        constructor
        · rintro (⟨rfl, rfl⟩ | ⟨hm, hne⟩)
          · exact ⟨Or.inr rfl, hv⟩
          · obtain ⟨hp, hval⟩ := (hmem k v).mp hm
            exact ⟨Or.inl hp, hval⟩
        · rintro ⟨hp | rfl, hval⟩
          · by_cases hkd : k = d
            · subst hkd
              rw [hv] at hval
              exact Or.inl ⟨rfl, (Option.some.inj hval).symm⟩
            · exact Or.inr ⟨(hmem k v).mpr ⟨hp, hval⟩, hkd⟩
          · rw [hv] at hval
            exact Or.inl ⟨rfl, (Option.some.inj hval).symm⟩
      obtain ⟨hnd2, hmem2⟩ := ih (hmInsert ctx d msgs) (fun k => P k ∨ k = d)
        (hmInsert_keys_nodup ctx d msgs hnd) hmem1
      refine ⟨hnd2, ?_⟩
      intro k v
      rw [hmem2 k v, or_assoc, ← List.mem_cons]

/-! ### Claim C7: context assembly -/

/-- Claim C7: the context built for a dispatched task contains exactly
one entry per dependency that exists in the graph and carries a result —
keyed by that dependency's id and holding the rendering of that
dependency's result — and nothing else; dependencies without a result
contribute nothing.  Concretely, for `a` completed with result `R` and
`b` depending only on `a`, `b`'s context is the single entry mapping
`"a"` to the rendering of `R`. -/
theorem build_context_spec (wf : Workflow) (task : Task) :
    (hmKeys (build_context wf task)).Nodup ∧
    (∀ k v, (k, v) ∈ build_context wf task ↔
      (k ∈ task.dependencies ∧ ∃ d r, wf.tasks.get_task k = some d ∧
        d.result = some r ∧ v = r.to_message Role.Assistant)) ∧
    build_context wfAB taskB =
      [("a", ChatResponse.to_message { content := "R" } Role.Assistant)] := by
  have hstart : ∀ k v, ((k, v) ∈ ([] : List (String × List Message))) ↔
      (False ∧ ctx_val wf k = some v) := by simp
  obtain ⟨hnd, hmem⟩ := ctx_fold_inv wf task.dependencies []
    (fun _ => False) (by simp [hmKeys]) hstart
  rw [build_context_eq]
  refine ⟨hnd, ?_, by decide⟩
  intro k v
  rw [hmem k v, ctx_val_iff]
  simp

end Opsml
